import Mathlib

/-!
Verification of the brackets-kill-ring extension (`src/main.js`).

The repository holds two historical variants of the extension in one file:

* the current variant (a module-global kill ring with kill-coalescing, a
  mark, and a guarded yank-again), embedded below as `KR`, `EState`,
  `killSpan`, `kill`, `yank`, `yank_pop`;
* the older per-editor variant (`KillRing` prototype, `_kill`, `_yank`,
  `_yank_pop`), embedded below as `KillRing2`, `EState2`, `yank2`,
  `yank_pop2`.

JavaScript strings are embedded as `List Char` (`Str`), documents of the
host editor as lists of lines (`Doc`), positions as `Pos` (line, ch) and
the ring index as `Option Int` (JS `null` or a number).  Functions that
can throw in JavaScript are embedded as `Option`-valued functions, where
`none` models a thrown exception.

The host editor buffer (a CodeMirror document, an external collaborator
of the extension) is modelled by `getLine`, `getRange`, `replaceRange`,
`clipPos` and `endOfReplace` below: positions are clipped to the document
bounds, `getRange` reads a span joining lines with a line break, and
`replaceRange` splices replacement text (split on line breaks) into the
line list; after a replacement the host leaves the cursor at the end of
the inserted text.
-/

/-- JavaScript strings, embedded as lists of characters. -/
abbrev Str := List Char

/-- The line-break character. -/
def NL : Char := Char.ofNat 10

/-- A buffer position: a (line, character-offset) pair, as used throughout
`main.js` (`{line : .., ch : ..}`). -/
structure Pos where
  line : Nat
  ch : Nat
deriving DecidableEq

/-- The host editor document: a list of lines (none of which contains a
line break). -/
abbrev Doc := List Str

/-- Model of `doc.getLine(l)`; out-of-range lines give the empty string. -/
def getLine (doc : Doc) (l : Nat) : Str := doc.getD l []

/-- Splits a string on line breaks; the result is always non-empty. -/
def splitLines : Str → List Str
  | [] => [[]]
  | c :: rest =>
    match splitLines rest with
    | [] => [[]]
    | l :: ls => if c = NL then [] :: l :: ls else (c :: l) :: ls

/-- Joins a list of lines with line breaks (inverse of `splitLines`). -/
def joinNL : List Str → Str
  | [] => []
  | [x] => x
  | x :: y :: ys => x ++ NL :: joinNL (y :: ys)

/-- Model of CodeMirror position clipping: a position beyond the last line
is moved to the end of the last line, and a character offset beyond the
end of its line is moved to the end of that line. -/
def clipPos (doc : Doc) (p : Pos) : Pos :=
  if doc.length ≤ p.line then
    ⟨doc.length - 1, (getLine doc (doc.length - 1)).length⟩
  else
    ⟨p.line, min p.ch (getLine doc p.line).length⟩

/-- Model of `doc.getRange(s, e)` for `s ≤ e`: the text between the two
clipped positions, with line breaks between the lines it spans. -/
def getRange (doc : Doc) (s e : Pos) : Str :=
  let s' := clipPos doc s
  let e' := clipPos doc e
  if s'.line = e'.line then
    ((getLine doc s'.line).take e'.ch).drop s'.ch
  else
    joinNL (((getLine doc s'.line).drop s'.ch) ::
      ((doc.drop (s'.line + 1)).take (e'.line - s'.line - 1) ++
        [(getLine doc e'.line).take e'.ch]))

/-- Appends `p` to the last element of a list of lines (used to splice
replacement text into a document). -/
def appendLast (p : Str) : List Str → List Str
  | [] => [p]
  | [x] => [x ++ p]
  | x :: y :: ys => x :: appendLast p (y :: ys)

/-- Model of `doc.replaceRange(text, s, e)`: replaces the span between the
clipped positions with `text`, splitting `text` on line breaks. -/
def replaceRange (doc : Doc) (text : Str) (s e : Pos) : Doc :=
  let s' := clipPos doc s
  let e' := clipPos doc e
  let pre := (getLine doc s'.line).take s'.ch
  let post := (getLine doc e'.line).drop e'.ch
  doc.take s'.line ++
    (match splitLines text with
     | [] => [pre ++ post]
     | x :: xs => appendLast post ((pre ++ x) :: xs)) ++
  doc.drop (e'.line + 1)

/-- Last segment of a list of lines (empty string for the empty list). -/
def lastSeg : List Str → Str
  | [] => []
  | [x] => x
  | _ :: y :: ys => lastSeg (y :: ys)

/-- End position of text inserted at `p`, given the text split on line
breaks: same line advanced by the text length for single-line text, or
the end of the last inserted segment for multi-line text. -/
def endOfInsertMid (p : Pos) (mid : List Str) : Pos :=
  match mid with
  | [] => p
  | [x] => ⟨p.line, p.ch + x.length⟩
  | _ :: xs => ⟨p.line + xs.length, (lastSeg xs).length⟩

/-- Host cursor position after `doc.replaceRange(text, b, _)`: the end of
the newly inserted text (`editor.getCursorPos()` read after the call). -/
def endOfReplace (doc : Doc) (text : Str) (b : Pos) : Pos :=
  endOfInsertMid (clipPos doc b) (splitLines text)

/-- The kill-ring store: `ring` and `index` of `main.js` (module globals
in the first variant, lines 49–50; fields `this.ring`/`this.index` of the
`KillRing` constructor in the second variant, lines 311–312).  The index
is a JS number or `null`, embedded as `Option Int`. -/
structure KR where
  ring : List Str
  index : Option Int
deriving DecidableEq

/-- The initial ring: `ring = []`, `index = null`. -/
def KR.init : KR := ⟨[], none⟩

/-- Capacity constant `MAX_BUFFER_LENGTH` (line 47 and line 313). -/
def MAX_BUFFER_LENGTH : Nat := 100

/-- Embedding of `push` (lines 56–63) and `KillRing.prototype.push`
(lines 320–327): `if (ring.length > MAX_BUFFER_LENGTH) ring.shift();
ring.push(text); index = ring.length - 1`. -/
def KR.push (kr : KR) (text : Str) : KR :=
  let r := if kr.ring.length > MAX_BUFFER_LENGTH then kr.ring.tail else kr.ring
  let r' := r ++ [text]
  { ring := r', index := some ((r'.length : Int) - 1) }

/-- Embedding of `concat` (lines 65–67): `ring[index] = ring[index] + text`.
When `index` is `null` or out of range, the JS statement writes a plain
object property (not an array element), which no later read through
`push`/`peek`/`rotate` can observe, so those cases leave the embedded
state unchanged. -/
def KR.concat (kr : KR) (text : Str) : KR :=
  match kr.index with
  | some i =>
    if 0 ≤ i ∧ i < (kr.ring.length : Int) then
      { kr with ring := kr.ring.set i.toNat (kr.ring.getD i.toNat [] ++ text) }
    else kr
  | none => kr

/-- Embedding of `peek` (lines 69–75) and `KillRing.prototype.peek`
(lines 329–335): `if (ring.length > 0) return ring[index]; else return
null`.  An out-of-range or `null` index makes `ring[index]` read
`undefined`; both that and the explicit `null` are embedded as `none`. -/
def KR.peek (kr : KR) : Option Str :=
  if kr.ring.length > 0 then
    match kr.index with
    | some i =>
      if 0 ≤ i ∧ i < (kr.ring.length : Int) then
        some (kr.ring.getD i.toNat [])
      else none
    | none => none
  else none

/-- Embedding of `rotate` (lines 77–85) and `KillRing.prototype.rotate`
(lines 337–348): `if (index !== null) { if (index > 0) index--; else
index = ring.length - 1; }`. -/
def KR.rotate (kr : KR) : KR :=
  match kr.index with
  | none => kr
  | some i =>
    { kr with index := some (if 0 < i then i - 1 else (kr.ring.length : Int) - 1) }

/-- An operation on the bare kill ring. -/
inductive Op where
  | push (t : Str)
  | concat (t : Str)
  | rotate
deriving DecidableEq

/-- Whether an operation is a push. -/
def Op.isPush : Op → Bool
  | .push _ => true
  | _ => false

/-- Applies one ring operation. -/
def applyStep (kr : KR) : Op → KR
  | .push t => kr.push t
  | .concat t => kr.concat t
  | .rotate => kr.rotate

/-- Applies a sequence of ring operations, oldest first. -/
def applyOps : List Op → KR → KR
  | [], kr => kr
  | op :: rest, kr => applyOps rest (applyStep kr op)

/-- State of the first (current) variant: the host buffer together with
the module globals `ring`, `index`, `last_kill_begin`, `last_yank_begin`,
`last_yank_end`, `mark` (lines 49–54). -/
structure EState where
  doc : Doc
  cursor : Pos
  selection : Option (Pos × Pos)
  kr : KR
  last_kill_begin : Option Pos
  last_yank_begin : Option Pos
  last_yank_end : Option Pos
  mark : Option Pos
deriving DecidableEq

/-- Span computation of `kill` (lines 128–150): the selection if there is
one, otherwise cursor to end of line; if the text of that span is empty,
the span is extended to `{line: start.line + 1, ch: 0}` and re-read. -/
def killSpan (s : EState) : Pos × Pos × Str :=
  let startR : Pos :=
    match s.selection with
    | some sel => sel.1
    | none => ⟨s.cursor.line, s.cursor.ch⟩
  let endR : Pos :=
    match s.selection with
    | some sel => sel.2
    | none => ⟨s.cursor.line, (getLine s.doc s.cursor.line).length⟩
  let text := getRange s.doc startR endR
  if text.length = 0 then
    (startR, ⟨startR.line + 1, 0⟩, getRange s.doc startR ⟨startR.line + 1, 0⟩)
  else
    (startR, endR, text)

/-- The coalescing test of `kill` (lines 154–156): `last_kill_begin !==
null && last_kill_begin.line === startRange.line && last_kill_begin.ch
=== startRange.ch`. -/
def lastKillMatches (o : Option Pos) (p : Pos) : Bool :=
  match o with
  | some q => q.line = p.line && q.ch = p.ch
  | none => false

/-- Embedding of `kill` (lines 118–171).  Inside the selection branch a
set mark is cleared (`_clearMark`, which also collapses the selection to
the cursor).  If the span text is non-empty it is concatenated to the
ring top when the coalescing test passes and pushed otherwise, and the
span is deleted from the buffer (the host collapses the cursor and
selection to the start of the deleted span).  `last_kill_begin` is then
set to the span start and both yank positions are reset. -/
def kill (s : EState) : EState :=
  let startR := (killSpan s).1
  let endR := (killSpan s).2.1
  let text := (killSpan s).2.2
  let cleared : EState :=
    if s.selection.isSome && s.mark.isSome then
      { s with mark := none, selection := none }
    else s
  let acted : EState :=
    if text.length > 0 then
      let kr' :=
        if lastKillMatches s.last_kill_begin startR then
          cleared.kr.concat text
        else
          cleared.kr.push text
      let doc' := replaceRange cleared.doc [] startR endR
      { cleared with
        kr := kr'
        doc := doc'
        cursor := clipPos doc' startR
        selection := none }
    else cleared
  { acted with
    last_kill_begin := some startR
    last_yank_begin := none
    last_yank_end := none }

/-- Embedding of `yank` (lines 173–202).  If `peek()` gives `null` the
function returns without touching any state.  Otherwise, with `again`
set, `doc.replaceRange(text, last_yank_begin, last_yank_end)` dereferences
the stored positions — when either is `null` the host throws, embedded as
`none`.  Without `again`, `last_yank_begin` is set to the cursor and the
text inserted there.  In both mutating branches `last_kill_begin` is
reset and `last_yank_end` is set to the cursor read back after the
replacement (the end of the inserted text). -/
def yank (s : EState) (again : Bool) : Option EState :=
  match s.kr.peek with
  | none => some s
  | some text =>
    if again then
      match s.last_yank_begin, s.last_yank_end with
      | some b, some e =>
        let doc' := replaceRange s.doc text b e
        let p := endOfReplace s.doc text b
        some { s with
               doc := doc'
               cursor := p
               last_kill_begin := none
               last_yank_end := some p }
      | _, _ => none
    else
      let c := s.cursor
      let doc' := replaceRange s.doc text c c
      let p := endOfReplace s.doc text c
      some { s with
             doc := doc'
             cursor := p
             last_yank_begin := some c
             last_kill_begin := none
             last_yank_end := some p }

/-- Embedding of `yank_pop` (lines 204–218): if `last_yank_end` is not
`null` and the cursor equals it (line and ch compared separately), the
ring is rotated and `yank(editor, true)` is invoked; otherwise nothing
happens. -/
def yank_pop (s : EState) : Option EState :=
  match s.last_yank_end with
  | none => some s
  | some e =>
    if s.cursor.line = e.line ∧ s.cursor.ch = e.ch then
      yank { s with kr := s.kr.rotate } true
    else
      some s

/-- The per-editor `KillRing` object of the second variant (lines
310–318): the ring store plus its own `last_yank_begin`/`last_yank_end`
fields. -/
structure KillRing2 where
  kr : KR
  last_yank_begin : Option Pos
  last_yank_end : Option Pos
deriving DecidableEq

/-- State of the second (older) variant: the host buffer and the
editor's `KillRing` object. -/
structure EState2 where
  doc : Doc
  cursor : Pos
  selection : Option (Pos × Pos)
  killRing : KillRing2
deriving DecidableEq

/-- Embedding of `_yank` of the second variant (lines 392–417): identical
to `yank` of the first variant except that the yank positions live on the
`KillRing` object and no kill anchor exists. -/
def yank2 (s : EState2) (again : Bool) : Option EState2 :=
  match s.killRing.kr.peek with
  | none => some s
  | some text =>
    if again then
      match s.killRing.last_yank_begin, s.killRing.last_yank_end with
      | some b, some e =>
        let doc' := replaceRange s.doc text b e
        let p := endOfReplace s.doc text b
        some { s with
               doc := doc'
               cursor := p
               killRing := { s.killRing with last_yank_end := some p } }
      | _, _ => none
    else
      let c := s.cursor
      let doc' := replaceRange s.doc text c c
      let p := endOfReplace s.doc text c
      some { s with
             doc := doc'
             cursor := p
             killRing := { s.killRing with
                           last_yank_begin := some c
                           last_yank_end := some p } }

/-- Embedding of `_yank_pop` of the second variant (lines 419–432): the
code reads `killRing.last_yank_end.line` with no `null` guard, so when
`last_yank_end` is `null` the host throws a TypeError, embedded as
`none`; otherwise it rotates and yanks again exactly when the cursor
equals the recorded end. -/
def yank_pop2 (s : EState2) : Option EState2 :=
  match s.killRing.last_yank_end with
  | none => none
  | some e =>
    if s.cursor.line = e.line ∧ s.cursor.ch = e.ch then
      yank2 { s with killRing := { s.killRing with kr := s.killRing.kr.rotate } } true
    else
      some s

/-! ### Concrete states for exercising the theorems on explicit inputs -/

/-- Empty one-line buffer, empty ring, no transient state. -/
def stEmptyRing : EState :=
  { doc := [[]]
    cursor := ⟨0, 0⟩
    selection := none
    kr := KR.init
    last_kill_begin := none
    last_yank_begin := none
    last_yank_end := none
    mark := none }

/-- Empty ring but a kill anchor recorded: reachable by a kill at the very
end of the buffer, which pushes nothing yet records `last_kill_begin`. -/
def stEmptyRingAnchor : EState :=
  { stEmptyRing with last_kill_begin := some ⟨0, 0⟩ }

/-- One entry in the ring and a stale yank range whose end the cursor has
left. -/
def stMovedCursor : EState :=
  { stEmptyRing with
    kr := { ring := [['a']], index := some 0 }
    last_yank_begin := some ⟨0, 0⟩
    last_yank_end := some ⟨0, 1⟩ }

/-- A second-variant editor whose `KillRing` has never recorded a yank. -/
def st2NoYank : EState2 :=
  { doc := [[]]
    cursor := ⟨0, 0⟩
    selection := none
    killRing := { kr := KR.init, last_yank_begin := none, last_yank_end := none } }

/-- Buffer `"hello world" / "second"` with the cursor at the origin and an
empty ring: the classic consecutive-kill scenario. -/
def stTwoKills : EState :=
  { stEmptyRing with
    doc := ["hello world".data, "second".data] }

/-- Buffer `"xy"` with the cursor between the two characters and a
two-entry ring whose cursor sits on `"bar"`. -/
def stYankAgain : EState :=
  { stEmptyRing with
    doc := ["xy".data]
    cursor := ⟨0, 1⟩
    kr := { ring := ["foo".data, "bar".data], index := some 1 } }

/-- One-entry ring with the cursor mid-buffer, ready for a fresh yank. -/
def stFreshYank : EState :=
  { stEmptyRing with
    doc := ["xy".data]
    cursor := ⟨0, 1⟩
    kr := { ring := ["ab".data], index := some 0 } }

/-- Cursor at the very end of the last line: a kill here has an empty span
even after line-break extension. -/
def stEndOfDoc : EState :=
  { stEmptyRing with
    doc := ["ab".data]
    cursor := ⟨0, 2⟩ }

/-- Cursor at the end of an empty first line with a second line below: a
kill here kills the line break. -/
def stEmptyLine : EState :=
  { stEmptyRing with
    doc := [[], "second".data] }

/-! ### List helper lemmas -/

-- getD over an append, index inside the left part.
theorem getD_append_lt {α} (a b : List α) (n : Nat) (d : α) (h : n < a.length) :
    (a ++ b).getD n d = a.getD n d := by
  simp [List.getD, List.getElem?_append, h]

-- getD over an append, index past the left part.
theorem getD_append_ge {α} (a b : List α) (n : Nat) (d : α) (h : a.length ≤ n) :
    (a ++ b).getD n d = b.getD (n - a.length) d := by
  induction a generalizing n with
  | nil => simp
  | cons x xs ih =>
    cases n with
    | zero => simp at h
    | succ n => simpa using ih n (Nat.le_of_succ_le_succ h)

-- Reading the appended element.
theorem getD_append_last {α} (a : List α) (x d : α) : (a ++ [x]).getD a.length d = x := by
  induction a with
  | nil => rfl
  | cons z zs ih =>
    simp only [List.cons_append, List.length_cons, List.getD_cons_succ]
    exact ih

-- Overwriting the appended element.
theorem set_append_last {α} (a : List α) (x y : α) :
    (a ++ [x]).set a.length y = a ++ [y] := by
  induction a with
  | nil => rfl
  | cons z zs ih => simp [List.set, ih]

/-! ### The ring-index invariant -/

/-- Invariant of the bare kill ring: a non-`null` index is in bounds, and
a `null` index means the ring is empty. -/
def KRInv (kr : KR) : Prop :=
  (∀ i : Int, kr.index = some i → 0 ≤ i ∧ i.toNat < kr.ring.length) ∧
  (kr.index = none → kr.ring = [])

theorem init_inv : KRInv KR.init :=
  ⟨fun i hi => by simp [KR.init] at hi, fun _ => rfl⟩

-- concat never changes the index.
theorem concat_index (kr : KR) (t : Str) : (kr.concat t).index = kr.index := by
  obtain ⟨ring, index⟩ := kr
  cases index with
  | none => rfl
  | some i =>
    unfold KR.concat
    dsimp only
    split <;> rfl

-- concat never changes the ring length.
theorem concat_length (kr : KR) (t : Str) : (kr.concat t).ring.length = kr.ring.length := by
  obtain ⟨ring, index⟩ := kr
  cases index with
  | none => rfl
  | some i =>
    unfold KR.concat
    dsimp only
    split <;> simp

-- concat with a null index leaves the ring object unchanged.
theorem concat_of_none (kr : KR) (t : Str) (hn : kr.index = none) : kr.concat t = kr := by
  unfold KR.concat
  rw [hn]

theorem applyStep_inv (kr : KR) (op : Op) (h : KRInv kr) : KRInv (applyStep kr op) := by
  cases op with
  | push t =>
    refine ⟨fun i hi => ?_, fun hn => ?_⟩
    · simp only [applyStep, KR.push, Option.some.injEq, List.length_append,
        List.length_cons, List.length_nil] at hi ⊢
      omega
    · simp [applyStep, KR.push] at hn
  | concat t =>
    have hst : applyStep kr (Op.concat t) = kr.concat t := rfl
    refine ⟨fun i hi => ?_, fun hn => ?_⟩
    · rw [hst, concat_index] at hi
      rw [hst, concat_length]
      exact h.1 i hi
    · rw [hst, concat_index] at hn
      rw [hst, concat_of_none kr t hn]
      exact h.2 hn
  | rotate =>
    obtain ⟨ring, index⟩ := kr
    cases index with
    | none => exact h
    | some i =>
      obtain ⟨h0, hlt⟩ := h.1 i rfl
      have hlt' : i.toNat < ring.length := hlt
      refine ⟨fun j hj => ?_, fun hn => ?_⟩
      · have hj' : (if 0 < i then i - 1 else ((ring.length : Int) - 1)) = j := by
          simpa [applyStep, KR.rotate] using hj
        show 0 ≤ j ∧ j.toNat < ring.length
        split at hj' <;> omega
      · simp [applyStep, KR.rotate] at hn

theorem applyOps_inv (ops : List Op) (kr : KR) (h : KRInv kr) : KRInv (applyOps ops kr) := by
  induction ops generalizing kr with
  | nil => exact h
  | cons op rest ih => exact ih _ (applyStep_inv kr op h)

-- A step never turns a set index back into null.
theorem applyStep_isSome (kr : KR) (op : Op) (h : kr.index.isSome) :
    (applyStep kr op).index.isSome := by
  cases op with
  | push t => simp [applyStep, KR.push]
  | concat t => rw [applyStep, concat_index]; exact h
  | rotate =>
    cases hidx : kr.index with
    | none => rw [hidx] at h; simp at h
    | some j => simp [applyStep, KR.rotate, hidx]

theorem applyOps_isSome (ops : List Op) (kr : KR) (h : kr.index.isSome) :
    (applyOps ops kr).index.isSome := by
  induction ops generalizing kr with
  | nil => exact h
  | cons op rest ih => exact ih _ (applyStep_isSome kr op h)

-- A null index after a run of operations means the run held no push.
theorem applyOps_none_no_push (ops : List Op) (kr : KR)
    (h : (applyOps ops kr).index = none) : ∀ op ∈ ops, op.isPush = false := by
  induction ops generalizing kr with
  | nil => intro op hop; simp at hop
  | cons op rest ih =>
    intro o ho
    rcases List.mem_cons.mp ho with rfl | hmem
    · cases o with
      | push t =>
        exfalso
        have h1 : (applyStep kr (Op.push t)).index.isSome := by simp [applyStep, KR.push]
        have h2 := applyOps_isSome rest _ h1
        simp only [applyOps] at h
        rw [h] at h2
        simp at h2
      | concat t => rfl
      | rotate => rfl
    · exact ih (applyStep kr op) h o hmem

/-! ### Claim theorems -/

set_option maxRecDepth 4000 in
/-- Claim C1 (code_bug evidence): the ring is NOT capped at 100 entries.
Pushing 101 items leaves 101 entries, pushing 200 still leaves 101, and
the entry count strictly exceeds the code's own `MAX_BUFFER_LENGTH`
constant: the guard `ring.length > MAX_BUFFER_LENGTH` evicts one push too
late. -/
theorem push_capacity_is_101 :
    (applyOps (List.replicate 101 (Op.push [])) KR.init).ring.length = 101 ∧
    (applyOps (List.replicate 200 (Op.push [])) KR.init).ring.length = 101 ∧
    MAX_BUFFER_LENGTH <
      (applyOps (List.replicate 101 (Op.push [])) KR.init).ring.length := by
  refine ⟨by decide, by decide, by decide⟩

/-- Claim C2 (code_bug evidence): in the current variant, `yank_pop` with
an unset `last_yank_end`, or with the cursor away from the recorded end,
is a no-op that does not throw; but in the second variant `_yank_pop`
with an unset `last_yank_end` dereferences `null` and throws (embedded as
`none`), contradicting the no-op/no-throw contract. -/
theorem yank_pop_guard_and_null_deref (s1 : EState) (s2 : EState2) :
    (s1.last_yank_end = none → yank_pop s1 = some s1) ∧
    (∀ e : Pos, s1.last_yank_end = some e → s1.cursor ≠ e → yank_pop s1 = some s1) ∧
    (s2.killRing.last_yank_end = none → yank_pop2 s2 = none) := by
  refine ⟨fun h => by simp [yank_pop, h], fun e he hne => ?_, fun h => by simp [yank_pop2, h]⟩
  have hcond : ¬(s1.cursor.line = e.line ∧ s1.cursor.ch = e.ch) := by
    intro hc
    refine hne ?_
    obtain ⟨h1, h2⟩ := hc
    cases hcur : s1.cursor with
    | mk l c =>
      cases e with
      | mk l' c' =>
        rw [hcur] at h1 h2
        simp_all
  simp [yank_pop, he, hcond]

theorem yank_pop_guard_and_null_deref_witness :
    yank_pop stEmptyRingAnchor = some stEmptyRingAnchor ∧
    yank_pop stMovedCursor = some stMovedCursor ∧
    yank_pop2 st2NoYank = none :=
  ⟨(yank_pop_guard_and_null_deref stEmptyRingAnchor st2NoYank).1 rfl,
   (yank_pop_guard_and_null_deref stMovedCursor st2NoYank).2.1 ⟨0, 1⟩ rfl (by decide),
   (yank_pop_guard_and_null_deref stEmptyRingAnchor st2NoYank).2.2 rfl⟩

/-- Claim C5 (counterexample): with an empty ring and a recorded kill
anchor, `yank` returns without clearing `last_kill_begin` — the clearing
sits inside the `text !== null` branch, so it is not unconditional. -/
theorem yank_empty_ring_keeps_anchor :
    yank stEmptyRingAnchor false = some stEmptyRingAnchor ∧
    stEmptyRingAnchor.last_kill_begin ≠ none := by decide

/-- Claim C5 (amended): whenever `yank` finds a non-empty ring (so `peek`
returns text) and completes, it clears `last_kill_begin`; when `peek`
returns the empty sentinel the whole operation, including the clearing,
is skipped and the state is returned unchanged. -/
theorem yank_clears_anchor_when_ring_nonempty (s : EState) (b : Bool) :
    (s.kr.peek = none → yank s b = some s) ∧
    (∀ (s' : EState) (t : Str), s.kr.peek = some t → yank s b = some s' →
      s'.last_kill_begin = none) := by
  constructor
  · intro h; simp [yank, h]
  · intro s' t h hy
    simp only [yank, h] at hy
    cases b with
    | false =>
      rw [if_neg (by simp)] at hy
      simp only [Option.some.injEq] at hy
      rw [← hy]
    | true =>
      rw [if_pos rfl] at hy
      cases hb : s.last_yank_begin <;> cases he : s.last_yank_end <;>
          rw [hb, he] at hy
      · exact absurd hy (by simp)
      · exact absurd hy (by simp)
      · exact absurd hy (by simp)
      · simp only [Option.some.injEq] at hy
        rw [← hy]

/-- The state produced by a fresh yank on `stFreshYank`, for the witness
below. -/
def stFreshYankAfter : EState :=
  { stFreshYank with
    doc := ["xaby".data]
    cursor := ⟨0, 3⟩
    last_yank_begin := some ⟨0, 1⟩
    last_yank_end := some ⟨0, 3⟩ }

theorem yank_clears_anchor_when_ring_nonempty_witness :
    yank stEmptyRing false = some stEmptyRing ∧
    stFreshYankAfter.last_kill_begin = none :=
  ⟨(yank_clears_anchor_when_ring_nonempty stEmptyRing false).1 (by decide),
   (yank_clears_anchor_when_ring_nonempty stFreshYank false).2 stFreshYankAfter
     "ab".data (by decide) (by decide)⟩

/-- Claim C6: a kill whose computed span is empty even after line-break
extension pushes or concatenates nothing, leaves the ring, the buffer and
the cursor untouched, but still records `last_kill_begin` at the span
start and clears both yank positions. -/
theorem kill_empty_span (s : EState) (p e : Pos)
    (h : killSpan s = (p, e, [])) :
    (kill s).kr = s.kr ∧ (kill s).doc = s.doc ∧ (kill s).cursor = s.cursor ∧
    (kill s).last_kill_begin = some p ∧
    (kill s).last_yank_begin = none ∧ (kill s).last_yank_end = none := by
  simp only [kill, h]
  by_cases hc : s.selection.isSome && s.mark.isSome <;> simp [hc]

theorem kill_empty_span_witness :
    (kill stEndOfDoc).kr = stEndOfDoc.kr ∧
    (kill stEndOfDoc).doc = stEndOfDoc.doc ∧
    (kill stEndOfDoc).cursor = stEndOfDoc.cursor ∧
    (kill stEndOfDoc).last_kill_begin = some ⟨0, 2⟩ ∧
    (kill stEndOfDoc).last_yank_begin = none ∧
    (kill stEndOfDoc).last_yank_end = none :=
  kill_empty_span stEndOfDoc ⟨0, 2⟩ ⟨1, 0⟩ (by decide)

/-- Claim C7: a yank on a buffer whose kill ring has no entries is a
no-op: `peek` returns the empty sentinel, nothing is mutated, the yank
range stays unset, and nothing is thrown (the embedded result is `some`
of the unchanged state). -/
theorem yank_empty_ring_noop (s : EState) (b : Bool) (h : s.kr.ring = []) :
    s.kr.peek = none ∧ yank s b = some s := by
  have hp : s.kr.peek = none := by simp [KR.peek, h]
  exact ⟨hp, by simp [yank, hp]⟩

theorem yank_empty_ring_noop_witness :
    stEmptyRing.kr.peek = none ∧ yank stEmptyRing true = some stEmptyRing :=
  yank_empty_ring_noop stEmptyRing true rfl

/-- Claim C9: on a non-empty ring, `rotate` decrements a positive index
by one and wraps index 0 to the last index; on the empty ring (in any
reachable state) it is a no-op; and it never changes the entries. -/
theorem rotate_moves_cursor_back :
    (∀ (kr : KR) (i : Int), kr.ring ≠ [] → kr.index = some i → 0 < i →
      kr.rotate = { kr with index := some (i - 1) }) ∧
    (∀ kr : KR, kr.ring ≠ [] → kr.index = some 0 →
      kr.rotate = { kr with index := some ((kr.ring.length : Int) - 1) }) ∧
    (∀ ops : List Op, (applyOps ops KR.init).ring = [] →
      (applyOps ops KR.init).rotate = applyOps ops KR.init) ∧
    (∀ kr : KR, kr.rotate.ring = kr.ring) := by
  refine ⟨fun kr i hne hidx hpos => ?_, fun kr hne hidx => ?_, fun ops hempty => ?_, fun kr => ?_⟩
  · simp [KR.rotate, hidx, hpos]
  · simp [KR.rotate, hidx]
  · have hinv := applyOps_inv ops KR.init init_inv
    cases hidx : (applyOps ops KR.init).index with
    | none => simp [KR.rotate, hidx]
    | some i =>
      have := (hinv.1 i hidx).2
      rw [hempty] at this
      simp at this
  · unfold KR.rotate
    cases kr.index <;> rfl

theorem rotate_moves_cursor_back_witness :
    KR.rotate ⟨[['a'], ['b']], some 1⟩ = { ring := [['a'], ['b']], index := some (1 - 1) } ∧
    KR.rotate ⟨[['a'], ['b']], some 0⟩ =
      { ring := [['a'], ['b']], index := some ((2 : Int) - 1) } ∧
    (applyOps [] KR.init).rotate = applyOps [] KR.init :=
  ⟨rotate_moves_cursor_back.1 ⟨[['a'], ['b']], some 1⟩ 1 (by decide) rfl (by decide),
   rotate_moves_cursor_back.2.1 ⟨[['a'], ['b']], some 0⟩ (by decide) rfl,
   rotate_moves_cursor_back.2.2.1 [] (by decide)⟩

/-- Claim C10: after any sequence of push, concat and rotate operations
from the initial ring, a non-empty ring has an in-range index and `peek`
returns the stored entry at that index; and the index is the `null`
sentinel only when the sequence held no push. -/
theorem ring_cursor_valid (ops : List Op) :
    ((applyOps ops KR.init).ring ≠ [] →
      ∃ i : Int, (applyOps ops KR.init).index = some i ∧ 0 ≤ i ∧
        i.toNat < (applyOps ops KR.init).ring.length ∧
        (applyOps ops KR.init).peek =
          some ((applyOps ops KR.init).ring.getD i.toNat [])) ∧
    ((applyOps ops KR.init).index = none → ∀ op ∈ ops, op.isPush = false) := by
  have hinv := applyOps_inv ops KR.init init_inv
  constructor
  · intro hne
    cases hidx : (applyOps ops KR.init).index with
    | none => exact absurd (hinv.2 hidx) hne
    | some i =>
      obtain ⟨h0, hlt⟩ := hinv.1 i hidx
      have hpos : 0 < (applyOps ops KR.init).ring.length := List.length_pos.mpr hne
      have hcond : 0 ≤ i ∧ i < ((applyOps ops KR.init).ring.length : Int) := ⟨h0, by omega⟩
      refine ⟨i, rfl, h0, hlt, ?_⟩
      simp only [KR.peek, hidx]
      rw [if_pos hpos, if_pos hcond]
  · exact applyOps_none_no_push ops KR.init

theorem ring_cursor_valid_witness :
    (∃ i : Int,
      (applyOps [Op.push ['a'], Op.rotate, Op.concat ['b']] KR.init).index = some i ∧
      0 ≤ i ∧
      i.toNat < (applyOps [Op.push ['a'], Op.rotate, Op.concat ['b']] KR.init).ring.length ∧
      (applyOps [Op.push ['a'], Op.rotate, Op.concat ['b']] KR.init).peek =
        some ((applyOps [Op.push ['a'], Op.rotate, Op.concat ['b']] KR.init).ring.getD
          i.toNat [])) ∧
    (∀ op ∈ [Op.rotate, Op.concat ['b']], op.isPush = false) :=
  ⟨(ring_cursor_valid [Op.push ['a'], Op.rotate, Op.concat ['b']]).1 (by decide),
   (ring_cursor_valid [Op.rotate, Op.concat ['b']]).2 (by decide)⟩

/-! ### Kill: coalescing and line-break extension -/

-- The coalescing test passes exactly when the stored anchor is the span start.
theorem lastKillMatches_iff (o : Option Pos) (p : Pos) :
    lastKillMatches o p = true ↔ o = some p := by
  cases o with
  | none => simp [lastKillMatches]
  | some q =>
    cases q with
    | mk ql qc =>
      cases p with
      | mk pl pc => simp [lastKillMatches, Pos.mk.injEq, and_comm]

-- A kill over a non-empty span with a non-matching anchor pushes the text.
theorem kill_kr_push (s : EState) (p e : Pos) (t : Str)
    (h : killSpan s = (p, e, t)) (ht : t ≠ [])
    (hnm : lastKillMatches s.last_kill_begin p = false) :
    (kill s).kr = s.kr.push t ∧ (kill s).last_kill_begin = some p := by
  simp only [kill, h]
  rw [if_pos (List.length_pos.mpr ht), hnm, if_neg Bool.false_ne_true]
  by_cases hc : s.selection.isSome && s.mark.isSome <;> simp [hc]

-- A kill over a non-empty span with a matching anchor concatenates the text.
theorem kill_kr_concat (s : EState) (p e : Pos) (t : Str)
    (h : killSpan s = (p, e, t)) (ht : t ≠ [])
    (hm : lastKillMatches s.last_kill_begin p = true) :
    (kill s).kr = s.kr.concat t ∧ (kill s).last_kill_begin = some p := by
  simp only [kill, h]
  rw [if_pos (List.length_pos.mpr ht), hm, if_pos rfl]
  by_cases hc : s.selection.isSome && s.mark.isSome <;> simp [hc]

-- Below capacity, a push appends and points the index at the new entry.
theorem push_no_evict (kr : KR) (t : Str)
    (hcap : ¬ kr.ring.length > MAX_BUFFER_LENGTH) :
    kr.push t = { ring := kr.ring ++ [t], index := some (kr.ring.length : Int) } := by
  unfold KR.push
  rw [if_neg hcap]
  simp

-- Concatenating onto the last entry of a ring whose index points at it.
theorem concat_at_end (r : List Str) (t1 t2 : Str) :
    KR.concat ⟨r ++ [t1], some (r.length : Int)⟩ t2 =
      ⟨r ++ [t1 ++ t2], some (r.length : Int)⟩ := by
  unfold KR.concat
  dsimp only
  rw [if_pos (by constructor <;> simp)]
  simp only [KR.mk.injEq, Int.toNat_natCast, and_true]
  rw [getD_append_last, set_append_last]

-- Peeking a ring whose index points at its appended last entry.
theorem peek_at_end (r : List Str) (x : Str) :
    KR.peek ⟨r ++ [x], some (r.length : Int)⟩ = some x := by
  unfold KR.peek
  rw [if_pos (by simp)]
  dsimp only
  rw [if_pos (by constructor <;> simp)]
  simp only [Int.toNat_natCast]
  rw [getD_append_last]

/-- Claim C3: for two consecutive kills with non-empty spans, where the
first kill records the anchor and the second kill's span starts exactly
at that anchor, the second kill concatenates into the ring top rather
than pushing: across both kills the ring gains exactly ONE entry, equal
to the concatenation of the two killed texts, and that entry is the one
`peek` returns. -/
theorem kill_coalesces_consecutive (s : EState) (p1 e1 : Pos) (t1 : Str)
    (p2 e2 : Pos) (t2 : Str)
    (h1 : killSpan s = (p1, e1, t1)) (ht1 : t1 ≠ [])
    (hnc : s.last_kill_begin ≠ some p1)
    (hcap : s.kr.ring.length ≤ MAX_BUFFER_LENGTH)
    (h2 : killSpan (kill s) = (p2, e2, t2)) (ht2 : t2 ≠ [])
    (hm : p2 = p1) :
    (kill (kill s)).kr.ring = s.kr.ring ++ [t1 ++ t2] ∧
    (kill (kill s)).kr.ring.length = s.kr.ring.length + 1 ∧
    (kill (kill s)).kr.peek = some (t1 ++ t2) := by
  have hm1 : lastKillMatches s.last_kill_begin p1 = false := by
    rw [Bool.eq_false_iff]
    intro hmt
    exact hnc ((lastKillMatches_iff _ _).mp hmt)
  obtain ⟨hkr1, hlkb1⟩ := kill_kr_push s p1 e1 t1 h1 ht1 hm1
  rw [push_no_evict s.kr t1 (by omega)] at hkr1
  have hm2 : lastKillMatches (kill s).last_kill_begin p2 = true := by
    rw [hlkb1, hm]
    exact (lastKillMatches_iff _ _).mpr rfl
  obtain ⟨hkr2, _⟩ := kill_kr_concat (kill s) p2 e2 t2 h2 ht2 hm2
  rw [hkr1, concat_at_end] at hkr2
  refine ⟨by rw [hkr2], by rw [hkr2]; simp, by rw [hkr2, peek_at_end]⟩

theorem kill_coalesces_consecutive_witness :
    (kill (kill stTwoKills)).kr.ring =
      stTwoKills.kr.ring ++ ["hello world".data ++ [NL]] ∧
    (kill (kill stTwoKills)).kr.ring.length = stTwoKills.kr.ring.length + 1 ∧
    (kill (kill stTwoKills)).kr.peek = some ("hello world".data ++ [NL]) :=
  kill_coalesces_consecutive stTwoKills ⟨0, 0⟩ ⟨0, 11⟩ "hello world".data
    ⟨0, 0⟩ ⟨1, 0⟩ [NL] (by decide) (by decide) (by decide) (by decide)
    (by decide) (by decide) rfl

/-- Claim C8: a kill with no selection whose cursor sits at the end of
its line (so the cursor-to-end-of-line span is empty), with a next line
present, extends the span to character 0 of the next line: the killed
text is exactly the line break, and the deletion merges the current line
with the next one. -/
theorem kill_extends_to_linebreak (s : EState)
    (hsel : s.selection = none)
    (hch : s.cursor.ch = (getLine s.doc s.cursor.line).length)
    (hnext : s.cursor.line + 1 < s.doc.length) :
    killSpan s = (⟨s.cursor.line, s.cursor.ch⟩, ⟨s.cursor.line + 1, 0⟩, [NL]) ∧
    (kill s).doc = s.doc.take s.cursor.line ++
      [getLine s.doc s.cursor.line ++ getLine s.doc (s.cursor.line + 1)] ++
      s.doc.drop (s.cursor.line + 2) := by
  obtain ⟨doc, ⟨l, ch⟩, sel, kr, lkb, lyb, lye, mark⟩ := s
  dsimp only at hsel hch hnext ⊢
  subst hsel
  subst hch
  have hl : l < doc.length := by omega
  have hclipS : clipPos doc ⟨l, (getLine doc l).length⟩ = ⟨l, (getLine doc l).length⟩ := by
    unfold clipPos
    dsimp only
    rw [if_neg (by omega)]
    simp
  have hclipE : clipPos doc ⟨l + 1, 0⟩ = ⟨l + 1, 0⟩ := by
    unfold clipPos
    dsimp only
    rw [if_neg (by omega)]
    simp
  have hr1 : getRange doc ⟨l, (getLine doc l).length⟩ ⟨l, (getLine doc l).length⟩ = [] := by
    simp only [getRange, hclipS]
    simp
  have hsub : l + 1 - l - 1 = 0 := by omega
  have hr2 : getRange doc ⟨l, (getLine doc l).length⟩ ⟨l + 1, 0⟩ = [NL] := by
    simp only [getRange, hclipS, hclipE]
    rw [if_neg (by omega)]
    simp [hsub, joinNL]
  have hspan : killSpan ⟨doc, ⟨l, (getLine doc l).length⟩, none, kr, lkb, lyb, lye, mark⟩ =
      (⟨l, (getLine doc l).length⟩, ⟨l + 1, 0⟩, [NL]) := by
    simp only [killSpan]
    simp [hr1, hr2]
  refine ⟨hspan, ?_⟩
  have hrep : replaceRange doc [] ⟨l, (getLine doc l).length⟩ ⟨l + 1, 0⟩ =
      doc.take l ++ [getLine doc l ++ getLine doc (l + 1)] ++ doc.drop (l + 2) := by
    simp only [replaceRange, hclipS, hclipE]
    simp [splitLines, appendLast]
  simp only [kill, hspan]
  rw [if_pos (by simp)]
  simp [hrep]

/-! ### Yank-again: replacing the previous insertion -/

-- splitLines never returns the empty list.
theorem splitLines_ne_nil (t : Str) : splitLines t ≠ [] := by
  cases t with
  | nil => simp [splitLines]
  | cons c rest =>
    unfold splitLines
    cases h : splitLines rest with
    | nil => simp
    | cons l ls => by_cases hc : c = NL <;> simp [hc]

-- appendLast keeps the segment count of a non-empty list.
theorem appendLast_length (p : Str) (x : Str) (xs : List Str) :
    (appendLast p (x :: xs)).length = xs.length + 1 := by
  induction xs generalizing x with
  | nil => rfl
  | cons y ys ih =>
    show (x :: appendLast p (y :: ys)).length = (y :: ys).length + 1
    simp only [List.length_cons]
    rw [ih y]

-- The last element of appendLast is the original last segment plus the tail.
theorem appendLast_getD (p : Str) (x : Str) (xs : List Str) (d : Str) :
    (appendLast p (x :: xs)).getD xs.length d = lastSeg (x :: xs) ++ p := by
  induction xs generalizing x with
  | nil => rfl
  | cons y ys ih => exact ih y

-- replaceRange with already-clipped endpoints, spelled out.
theorem replaceRange_eq (doc : Doc) (text : Str) (s e : Pos)
    (hs : clipPos doc s = s) (he : clipPos doc e = e) :
    replaceRange doc text s e =
      doc.take s.line ++
        (match splitLines text with
         | [] => [(getLine doc s.line).take s.ch ++ (getLine doc e.line).drop e.ch]
         | x :: xs => appendLast ((getLine doc e.line).drop e.ch)
             (((getLine doc s.line).take s.ch ++ x) :: xs)) ++
      doc.drop (e.line + 1) := by
  unfold replaceRange
  rw [hs, he]

-- Reading a line inside the middle segment of a spliced document.
theorem getLine_mid (doc : Doc) (cl : Nat) (N D2 : List Str) (k : Nat)
    (hl : cl ≤ doc.length) (hk : k < N.length) :
    getLine (doc.take cl ++ N ++ D2) (cl + k) = N.getD k [] := by
  have htake : (doc.take cl).length = cl := by simp [List.length_take]; omega
  unfold getLine
  rw [List.append_assoc, getD_append_ge _ _ _ _ (by omega)]
  rw [htake]
  have hsub : cl + k - cl = k := by omega
  rw [hsub, getD_append_lt _ _ _ _ hk]

-- Taking the prefix back out of a spliced document.
theorem take_mid (doc : Doc) (cl : Nat) (N D2 : List Str) (hl : cl ≤ doc.length) :
    (doc.take cl ++ N ++ D2).take cl = doc.take cl := by
  rw [List.append_assoc]
  exact List.take_left' (by simp [List.length_take]; omega)

-- Dropping past the middle segment of a spliced document.
theorem drop_mid (doc : Doc) (cl : Nat) (N D2 : List Str) (hl : cl ≤ doc.length) :
    (doc.take cl ++ N ++ D2).drop (cl + N.length) = D2 := by
  exact List.drop_left' (by simp [List.length_take]; omega)

-- Positions inside the middle segment of a spliced document are clipped to
-- themselves.
theorem clip_mid (doc : Doc) (cl : Nat) (N D2 : List Str) (k x : Nat)
    (hl : cl ≤ doc.length) (hk : k < N.length) (hx : x ≤ (N.getD k []).length) :
    clipPos (doc.take cl ++ N ++ D2) ⟨cl + k, x⟩ = ⟨cl + k, x⟩ := by
  unfold clipPos
  dsimp only
  rw [if_neg (by simp [List.length_take]; omega)]
  rw [getLine_mid doc cl N D2 k hl hk, Nat.min_eq_left hx]

theorem replace_over_insert (doc : Doc) (C : Pos) (t1 t2 : Str)
    (hl : C.line < doc.length)
    (hc : C.ch ≤ (getLine doc C.line).length) :
    replaceRange (replaceRange doc t1 C C) t2 C (endOfReplace doc t1 C) =
      replaceRange doc t2 C C := by
  obtain ⟨cl, cc⟩ := C
  dsimp only at hl hc
  have hll : cl ≤ doc.length := Nat.le_of_lt hl
  have hclip : clipPos doc ⟨cl, cc⟩ = ⟨cl, cc⟩ := by
    unfold clipPos
    dsimp only
    rw [if_neg (by omega), Nat.min_eq_left hc]
  have hpre : ((getLine doc cl).take cc).length = cc := by
    simp [List.length_take]; omega
  rw [replaceRange_eq doc t1 ⟨cl, cc⟩ ⟨cl, cc⟩ hclip hclip]
  rw [replaceRange_eq doc t2 ⟨cl, cc⟩ ⟨cl, cc⟩ hclip hclip]
  unfold endOfReplace
  rw [hclip]
  cases hsp : splitLines t1 with
  | nil => exact absurd hsp (splitLines_ne_nil t1)
  | cons m ms =>
    dsimp only
    cases ms with
    | nil =>
      dsimp only [appendLast, endOfInsertMid]
      have hg1 : getLine (List.take cl doc ++
            [List.take cc (getLine doc cl) ++ m ++ List.drop cc (getLine doc cl)] ++
            List.drop (cl + 1) doc) cl =
          List.take cc (getLine doc cl) ++ m ++ List.drop cc (getLine doc cl) := by
        simpa using getLine_mid doc cl
          [List.take cc (getLine doc cl) ++ m ++ List.drop cc (getLine doc cl)]
          (List.drop (cl + 1) doc) 0 hll (by simp)
      have hclip1 : clipPos (List.take cl doc ++
            [List.take cc (getLine doc cl) ++ m ++ List.drop cc (getLine doc cl)] ++
            List.drop (cl + 1) doc) ⟨cl, cc⟩ = ⟨cl, cc⟩ := by
        simpa using clip_mid doc cl
          [List.take cc (getLine doc cl) ++ m ++ List.drop cc (getLine doc cl)]
          (List.drop (cl + 1) doc) 0 cc hll (by simp) (by simp; omega)
      have hclipE1 : clipPos (List.take cl doc ++
            [List.take cc (getLine doc cl) ++ m ++ List.drop cc (getLine doc cl)] ++
            List.drop (cl + 1) doc) ⟨cl, cc + m.length⟩ = ⟨cl, cc + m.length⟩ := by
        simpa using clip_mid doc cl
          [List.take cc (getLine doc cl) ++ m ++ List.drop cc (getLine doc cl)]
          (List.drop (cl + 1) doc) 0 (cc + m.length) hll (by simp) (by simp; omega)
      rw [replaceRange_eq _ t2 _ _ hclip1 hclipE1]
      dsimp only
      rw [hg1]
      rw [take_mid doc cl _ _ hll]
      have hdrop1 : (List.take cl doc ++
            [List.take cc (getLine doc cl) ++ m ++ List.drop cc (getLine doc cl)] ++
            List.drop (cl + 1) doc).drop (cl + 1) = List.drop (cl + 1) doc := by
        simpa using drop_mid doc cl
          [List.take cc (getLine doc cl) ++ m ++ List.drop cc (getLine doc cl)]
          (List.drop (cl + 1) doc) hll
      rw [hdrop1]
      have hpre2 : (List.take cc (getLine doc cl) ++ m ++ List.drop cc (getLine doc cl)).take cc =
          List.take cc (getLine doc cl) := by
        rw [List.append_assoc]
        exact List.take_left' hpre
      have hpost2 : (List.take cc (getLine doc cl) ++ m ++
            List.drop cc (getLine doc cl)).drop (cc + m.length) =
          List.drop cc (getLine doc cl) :=
        List.drop_left' (by simp [hpre])
      rw [hpre2, hpost2]
    | cons m2 ms2 =>
      dsimp only [appendLast, endOfInsertMid]
      simp only [List.length_cons]
      have hNlen : ((List.take cc (getLine doc cl) ++ m) ::
          appendLast (List.drop cc (getLine doc cl)) (m2 :: ms2)).length = ms2.length + 2 := by
        simp [appendLast_length]
      have hg1 : getLine (List.take cl doc ++
            ((List.take cc (getLine doc cl) ++ m) ::
              appendLast (List.drop cc (getLine doc cl)) (m2 :: ms2)) ++
            List.drop (cl + 1) doc) cl = List.take cc (getLine doc cl) ++ m := by
        simpa using getLine_mid doc cl
          ((List.take cc (getLine doc cl) ++ m) ::
            appendLast (List.drop cc (getLine doc cl)) (m2 :: ms2))
          (List.drop (cl + 1) doc) 0 hll (by simp)
      have hgE : getLine (List.take cl doc ++
            ((List.take cc (getLine doc cl) ++ m) ::
              appendLast (List.drop cc (getLine doc cl)) (m2 :: ms2)) ++
            List.drop (cl + 1) doc) (cl + (ms2.length + 1)) =
          lastSeg (m2 :: ms2) ++ List.drop cc (getLine doc cl) := by
        rw [getLine_mid doc cl _ _ (ms2.length + 1) hll (by rw [hNlen]; omega)]
        rw [List.getD_cons_succ]
        exact appendLast_getD _ m2 ms2 []
      have hclip1 : clipPos (List.take cl doc ++
            ((List.take cc (getLine doc cl) ++ m) ::
              appendLast (List.drop cc (getLine doc cl)) (m2 :: ms2)) ++
            List.drop (cl + 1) doc) ⟨cl, cc⟩ = ⟨cl, cc⟩ := by
        simpa using clip_mid doc cl
          ((List.take cc (getLine doc cl) ++ m) ::
            appendLast (List.drop cc (getLine doc cl)) (m2 :: ms2))
          (List.drop (cl + 1) doc) 0 cc hll (by simp) (by simp; omega)
      have hclipE1 : clipPos (List.take cl doc ++
            ((List.take cc (getLine doc cl) ++ m) ::
              appendLast (List.drop cc (getLine doc cl)) (m2 :: ms2)) ++
            List.drop (cl + 1) doc) ⟨cl + (ms2.length + 1), (lastSeg (m2 :: ms2)).length⟩ =
          ⟨cl + (ms2.length + 1), (lastSeg (m2 :: ms2)).length⟩ := by
        apply clip_mid doc cl _ _ (ms2.length + 1) _ hll (by rw [hNlen]; omega)
        rw [List.getD_cons_succ, appendLast_getD _ m2 ms2 []]
        simp
      rw [replaceRange_eq _ t2 _ _ hclip1 hclipE1]
      dsimp only
      rw [hg1, hgE]
      rw [take_mid doc cl _ _ hll]
      have hidx : cl + (ms2.length + 1) + 1 = cl +
          ((List.take cc (getLine doc cl) ++ m) ::
            appendLast (List.drop cc (getLine doc cl)) (m2 :: ms2)).length := by
        rw [hNlen]
        omega
      rw [hidx, drop_mid doc cl _ _ hll]
      have hpre2 : (List.take cc (getLine doc cl) ++ m).take cc =
          List.take cc (getLine doc cl) := List.take_left' hpre
      have hpost2 : (lastSeg (m2 :: ms2) ++ List.drop cc (getLine doc cl)).drop
            (lastSeg (m2 :: ms2)).length = List.drop cc (getLine doc cl) :=
        List.drop_left' rfl
      rw [hpre2, hpost2]

-- Core of yank followed by yank-again, with the rotated index abstracted.
theorem yank_again_swaps (s : EState) (i j : Int)
    (hv1 : s.cursor.line < s.doc.length)
    (hv2 : s.cursor.ch ≤ (getLine s.doc s.cursor.line).length)
    (hidx : s.kr.index = some i) (hi0 : 0 ≤ i)
    (hilt : i.toNat < s.kr.ring.length)
    (hj : (if 0 < i then i - 1 else (s.kr.ring.length : Int) - 1) = j)
    (hj0 : 0 ≤ j) (hjlt : j.toNat < s.kr.ring.length) :
    ∃ s1 s2 : EState,
      yank s false = some s1 ∧
      yank_pop s1 = some s2 ∧
      s1.doc = replaceRange s.doc (s.kr.ring.getD i.toNat []) s.cursor s.cursor ∧
      s2.kr.ring = s.kr.ring ∧
      s2.kr.index = some j ∧
      s2.doc = replaceRange s.doc (s.kr.ring.getD j.toNat []) s.cursor s.cursor := by
  have hlenpos : 0 < s.kr.ring.length := by omega
  have hpeek : s.kr.peek = some (s.kr.ring.getD i.toNat []) := by
    unfold KR.peek
    rw [if_pos hlenpos, hidx]
    dsimp only
    rw [if_pos ⟨hi0, by omega⟩]
  have hrot : s.kr.rotate = { s.kr with index := some j } := by
    unfold KR.rotate
    rw [hidx]
    dsimp only
    rw [hj]
  have hpeek2 : KR.peek { s.kr with index := some j } =
      some (s.kr.ring.getD j.toNat []) := by
    unfold KR.peek
    dsimp only
    rw [if_pos hlenpos, if_pos ⟨hj0, by omega⟩]
  have hy1 : yank s false = some { s with
      doc := replaceRange s.doc (s.kr.ring.getD i.toNat []) s.cursor s.cursor
      cursor := endOfReplace s.doc (s.kr.ring.getD i.toNat []) s.cursor
      last_kill_begin := none
      last_yank_begin := some s.cursor
      last_yank_end := some (endOfReplace s.doc (s.kr.ring.getD i.toNat []) s.cursor) } := by
    unfold yank
    rw [hpeek]
    dsimp only
    rw [if_neg Bool.false_ne_true]
  have hy2 : yank_pop { s with
      doc := replaceRange s.doc (s.kr.ring.getD i.toNat []) s.cursor s.cursor
      cursor := endOfReplace s.doc (s.kr.ring.getD i.toNat []) s.cursor
      last_kill_begin := none
      last_yank_begin := some s.cursor
      last_yank_end := some (endOfReplace s.doc (s.kr.ring.getD i.toNat []) s.cursor) } =
    some { s with
      doc := replaceRange (replaceRange s.doc (s.kr.ring.getD i.toNat []) s.cursor s.cursor)
        (s.kr.ring.getD j.toNat []) s.cursor
        (endOfReplace s.doc (s.kr.ring.getD i.toNat []) s.cursor)
      cursor := endOfReplace (replaceRange s.doc (s.kr.ring.getD i.toNat []) s.cursor s.cursor)
        (s.kr.ring.getD j.toNat []) s.cursor
      kr := { s.kr with index := some j }
      last_kill_begin := none
      last_yank_begin := some s.cursor
      last_yank_end := some (endOfReplace
        (replaceRange s.doc (s.kr.ring.getD i.toNat []) s.cursor s.cursor)
        (s.kr.ring.getD j.toNat []) s.cursor) } := by
    unfold yank_pop
    dsimp only
    rw [if_pos ⟨rfl, rfl⟩]
    rw [hrot]
    unfold yank
    rw [hpeek2]
    dsimp only
    rw [if_pos rfl]
  exact ⟨_, _, hy1, hy2, rfl, rfl, rfl,
    replace_over_insert s.doc s.cursor (s.kr.ring.getD i.toNat [])
      (s.kr.ring.getD j.toNat []) hv1 hv2⟩

/-- Claim C4: after a fresh yank of the ring top T1 at cursor C (which
records `lastYankRange`), a yank-again with the cursor still at the end
of the insertion rotates the ring cursor to the next-older entry T2 and
replaces exactly the buffer range that held T1: the net buffer change is
T1 replaced by T2 at C, not T1 followed by T2, and the ring entries are
untouched. -/
theorem yank_then_yank_again_replaces (s : EState) (i : Int)
    (hv1 : s.cursor.line < s.doc.length)
    (hv2 : s.cursor.ch ≤ (getLine s.doc s.cursor.line).length)
    (hidx : s.kr.index = some i) (hi0 : 0 ≤ i)
    (hilt : i.toNat < s.kr.ring.length) :
    ∃ s1 s2 : EState,
      yank s false = some s1 ∧
      yank_pop s1 = some s2 ∧
      s1.doc = replaceRange s.doc (s.kr.ring.getD i.toNat []) s.cursor s.cursor ∧
      s2.kr.ring = s.kr.ring ∧
      s2.kr.index = some (if 0 < i then i - 1 else (s.kr.ring.length : Int) - 1) ∧
      s2.doc = replaceRange s.doc
        (s.kr.ring.getD
          (if 0 < i then i - 1 else (s.kr.ring.length : Int) - 1).toNat [])
        s.cursor s.cursor :=
  yank_again_swaps s i _ hv1 hv2 hidx hi0 hilt rfl
    (by split <;> omega) (by split <;> omega)

theorem yank_then_yank_again_replaces_witness :
    ∃ s1 s2 : EState,
      yank stYankAgain false = some s1 ∧
      yank_pop s1 = some s2 ∧
      s1.doc = replaceRange stYankAgain.doc (stYankAgain.kr.ring.getD (1 : Int).toNat [])
        stYankAgain.cursor stYankAgain.cursor ∧
      s2.kr.ring = stYankAgain.kr.ring ∧
      s2.kr.index = some (if 0 < (1 : Int) then 1 - 1
        else (stYankAgain.kr.ring.length : Int) - 1) ∧
      s2.doc = replaceRange stYankAgain.doc
        (stYankAgain.kr.ring.getD
          (if 0 < (1 : Int) then (1 : Int) - 1
           else (stYankAgain.kr.ring.length : Int) - 1).toNat [])
        stYankAgain.cursor stYankAgain.cursor :=
  yank_then_yank_again_replaces stYankAgain 1 (by decide) (by decide) rfl
    (by decide) (by decide)

theorem kill_extends_to_linebreak_witness :
    killSpan stEmptyLine =
      (⟨stEmptyLine.cursor.line, stEmptyLine.cursor.ch⟩,
       ⟨stEmptyLine.cursor.line + 1, 0⟩, [NL]) ∧
    (kill stEmptyLine).doc = stEmptyLine.doc.take stEmptyLine.cursor.line ++
      [getLine stEmptyLine.doc stEmptyLine.cursor.line ++
        getLine stEmptyLine.doc (stEmptyLine.cursor.line + 1)] ++
      stEmptyLine.doc.drop (stEmptyLine.cursor.line + 2) :=
  kill_extends_to_linebreak stEmptyLine rfl (by decide) (by decide)
